import Mathlib

/-!
Verification development for the presets-analyzer repository.

The repository contains several near-duplicate variants of a small app that
flattens nested "preset" JSON documents into flat records, filters and
projects them, syncs them incrementally from object storage into a document
store, and exports query results as CSV.

This file gives a shallow embedding of the relevant JavaScript functions:

* `extractObjects` / `traverseObjects` — the recursive flattener
  (src/unnamed/part_001 lines 33-64, src/server.js lines 264-292);
* `filterObjects` — the six-operator predicate engine
  (src/server.js lines 522-565) and the includes-only variant
  (src/server.js lines 357-388, src/public/app.js lines 399-424);
* `selectColumns` and the default-column fallback of the search handlers;
* the S3→MongoDB sync pass `syncFromS3` (diff and apply phases,
  src/unnamed/part_001);
* the in-memory S3 cache and its not-ready search guard
  (src/public/app.js second document);
* `downloadCSV`'s escaping and CSV assembly
  (src/public/app.js lines 177-205, src/unnamed/part_000 lines 310-336),
  together with a standard (RFC-4180 style, LF-terminated) CSV reader
  used to state the round-trip property.

JavaScript values are modelled by the inductive `JVal` (JSON has no
`undefined`, so `undefined` appears only as `Option.none` at access sites).
JavaScript numbers are modelled as integers; no claim depends on
floating-point formatting.
-/

/-- A scalar value as it is stored in a flat record: a string, a number,
a boolean, or JSON `null`. Nested objects/arrays are stringified by the
flattener before storage, so they appear here as strings. -/
inductive Scalar where
  | s (v : String)
  | n (v : Int)
  | b (v : Bool)
  | null
deriving DecidableEq, Repr

/-- A flat record / result row: a JavaScript object modelled as an ordered
association list. The value `Option.none` models a key that was assigned
`undefined` (as `selectColumns` does for missing columns); values produced
by the flattener are always `some`. Key order is JS insertion order and
keys are unique by construction (`setKey`). -/
abbrev Rec := List (String × Option Scalar)

/-- JS property assignment `r[k] = v`: overwrite in place if the key exists,
otherwise append the key at the end. -/
def setKey : Rec → String → Option Scalar → Rec
  | [], k, v => [(k, v)]
  | (k', v') :: rest, k, v =>
    if k' = k then (k, v) :: rest else (k', v') :: setKey rest k v

/-- The key list of a record (JS `Object.keys`). -/
def recKeys (r : Rec) : List String := r.map Prod.fst

/-- JS `obj.hasOwnProperty(k)`. -/
def hasKey (r : Rec) (k : String) : Bool := (recKeys r).contains k

/-- JS property read `obj[k]`: `none` when the key is absent or was
assigned `undefined` (both read back as `undefined`). -/
def jsIndex (r : Rec) (k : String) : Option Scalar :=
  match r.lookup k with
  | none => none
  | some v => v

mutual
/-- A parsed JSON value (the input documents). -/
inductive JVal where
  | s (v : String)
  | n (v : Int)
  | b (v : Bool)
  | null
  | obj (fields : JFields)
  | arr (elems : JArr)

/-- The ordered own fields of a JSON object. -/
inductive JFields where
  | nil
  | cons (key : String) (val : JVal) (rest : JFields)

/-- The ordered elements of a JSON array. -/
inductive JArr where
  | nil
  | cons (head : JVal) (tail : JArr)
end

/-- Fields as a plain list (the result of JS `Object.entries`). -/
def JFields.toList : JFields → List (String × JVal)
  | .nil => []
  | .cons k v rest => (k, v) :: rest.toList

/-- Array elements as a plain list. -/
def JArr.toList : JArr → List JVal
  | .nil => []
  | .cons x rest => x :: rest.toList

/-- First-occurrence field lookup on a JS object (keys are unique in a JS
object, so first and last occurrence coincide for real inputs). -/
def jfLookup : JFields → String → Option JVal
  | .nil, _ => none
  | .cons k v rest, key => if k = key then some v else jfLookup rest key

/-- JS truthiness of a value. Objects and arrays (even empty ones) are
truthy; `""`, `0`, `false` and `null` are falsy. -/
def jsTruthy : JVal → Bool
  | .s v => v ≠ ""
  | .n v => v ≠ 0
  | .b v => v
  | .null => false
  | .obj _ => true
  | .arr _ => true

/-- Property access `v.k` for the keys `"type"`, `"objects"` and `"body"`
used by the flattener: defined for objects, `undefined` (`none`) for
non-object primitives and arrays (those keys are never array indices or
string indices, and `length` is never accessed). Access on `null` throws
in JS; the traversal below only reaches this function on values that have
already survived `Object.entries`, so the `null` case is unreachable
there. -/
def jsGetProp : JVal → String → Option JVal
  | .obj fs, k => jfLookup fs k
  | _, _ => none

/-- The JS test `obj.type === 'group'`. -/
def isGroupType : Option JVal → Bool
  | some (.s t) => t = "group"
  | _ => false

/-- One hexadecimal digit. -/
def hexDigit (n : Nat) : Char :=
  if n < 10 then Char.ofNat (48 + n) else Char.ofNat (87 + (n % 16))

/-- Four-digit hexadecimal rendering used by `\uXXXX` escapes. -/
def hex4 (n : Nat) : String :=
  String.mk [hexDigit (n / 4096 % 16), hexDigit (n / 256 % 16),
             hexDigit (n / 16 % 16), hexDigit (n % 16)]

/-- JSON string escaping of a single character (`JSON.stringify`). -/
def jsonEscapeChar (c : Char) : String :=
  if c = '"' then "\\\""
  else if c = '\\' then "\\\\"
  else if c = '\n' then "\\n"
  else if c = '\r' then "\\r"
  else if c = '\t' then "\\t"
  else if c = '\x08' then "\\b"
  else if c = '\x0c' then "\\f"
  else if c.toNat < 32 then "\\u" ++ hex4 c.toNat
  else String.mk [c]

/-- A JSON-quoted string literal. -/
def jsonQuote (s : String) : String :=
  "\"" ++ String.join (s.data.map jsonEscapeChar) ++ "\""

mutual
/-- `JSON.stringify` of a value (the flattener applies it to nested
object/array property values). -/
def stringifyJson : JVal → String
  | .s v => jsonQuote v
  | .n v => toString v
  | .b true => "true"
  | .b false => "false"
  | .null => "null"
  | .obj fs => "\x7b" ++ stringifyFields fs ++ "\x7d"
  | .arr xs => "[" ++ stringifyArr xs ++ "]"

/-- Comma-separated `"key":value` pairs of an object body. -/
def stringifyFields : JFields → String
  | .nil => ""
  | .cons k v .nil => jsonQuote k ++ ":" ++ stringifyJson v
  | .cons k v rest => jsonQuote k ++ ":" ++ stringifyJson v ++ "," ++ stringifyFields rest

/-- Comma-separated elements of an array body. -/
def stringifyArr : JArr → String
  | .nil => ""
  | .cons x .nil => stringifyJson x
  | .cons x rest => stringifyJson x ++ "," ++ stringifyArr rest
end

/-- The value stored for one property by the flattener: scalars are copied
verbatim, objects and arrays are stringified (the
`typeof value === 'object' && value !== null` branch). -/
def flattenValue : JVal → Scalar
  | .s v => .s v
  | .n v => .n v
  | .b v => .b v
  | .null => .null
  | .obj fs => .s (stringifyJson (.obj fs))
  | .arr xs => .s (stringifyJson (.arr xs))

/-- Whether a JSON value is a scalar (string, number, boolean or null),
i.e. copied verbatim by the flattener rather than stringified. -/
def isScalarJV : JVal → Bool
  | .obj _ => false
  | .arr _ => false
  | _ => true

/-- JS `Object.entries`. Objects yield their fields, arrays and strings
yield index/character entries, numbers and booleans yield nothing, and
`null` throws a `TypeError` (modelled as `Except.error`), which the
per-file handlers catch. -/
def jsEntries : JVal → Except Unit (List (String × JVal))
  | .null => .error ()
  | .obj fs => .ok fs.toList
  | .arr xs => .ok (xs.toList.enum.map (fun p => (toString p.1, p.2)))
  | .s v => .ok (v.data.enum.map (fun p => (toString p.1, JVal.s (String.mk [p.2]))))
  | .n _ => .ok []
  | .b _ => .ok []

/-- One iteration of `extractObjects`'s `cleanEntry` loop: skip the
`objects` key, otherwise assign the (stringified when nested) value. -/
def cleanStep (acc : Rec) (kv : String × JVal) : Rec :=
  if kv.1 = "objects" then acc
  else setKey acc kv.1 (some (flattenValue kv.2))

/-- Build one flat record from a node's entries: start from
`{ fileName }` and copy every own key except `objects`, stringifying
nested values (`extractObjects`'s `cleanEntry` loop). -/
def mkCleanEntry (fileName : String) (es : List (String × JVal)) : Rec :=
  es.foldl cleanStep [("fileName", some (.s fileName))]

mutual
/-- The flattener's traversal loop over one `objects` array: for each
element, push its flat record, then recurse into its children when its
`type` is `"group"` and its `objects` property is truthy. Errors model the
`TypeError` thrown by `Object.entries(null)`. -/
def traverseList (fileName : String) : JArr → Except Unit (List Rec)
  | .nil => .ok []
  | .cons x rest => do
    let es ← jsEntries x
    let childRecs ←
      if isGroupType (jsGetProp x "type") then groupChildren fileName x
      else .ok []
    let restRecs ← traverseList fileName rest
    .ok (mkCleanEntry fileName es :: (childRecs ++ restRecs))

/-- The recursion step for a group-typed element: read its `objects`
property and traverse it when truthy. -/
def groupChildren (fileName : String) : JVal → Except Unit (List Rec)
  | .obj fs => fieldsChildren fileName fs
  | _ => .ok []

/-- Scan an object's fields for its `objects` property (JS field lookup,
done structurally so the recursion into the child array is visible to the
termination checker). -/
def fieldsChildren (fileName : String) : JFields → Except Unit (List Rec)
  | .nil => .ok []
  | .cons k v rest =>
    if k = "objects" then
      if jsTruthy v then traverseVal fileName v else .ok []
    else fieldsChildren fileName rest

/-- `traverse(objects)`: a non-array argument contributes nothing
(`if (!Array.isArray(objects)) return`). -/
def traverseVal (fileName : String) : JVal → Except Unit (List Rec)
  | .arr xs => traverseList fileName xs
  | _ => .ok []
end

/-- `extractObjects(json, fileName)` (src/unnamed/part_001 lines 33-64):
traverse `json.body.objects` when `json.body` and `json.body.objects` are
truthy, otherwise produce no records. Reading `json.body` on a `null`
document throws (per-file handlers catch it). -/
def extractObjects (json : JVal) (fileName : String) : Except Unit (List Rec) :=
  match json with
  | .null => .error ()
  | _ =>
    match jsGetProp json "body" with
    | none => .ok []
    | some body =>
      if jsTruthy body then
        match jsGetProp body "objects" with
        | none => .ok []
        | some objs =>
          if jsTruthy objs then traverseVal fileName objs else .ok []
      else .ok []

/-- A filter predicate as sent by the UI: `{ property, operator, value }`.
Operators are kept as raw strings, as in the source (an unrecognized
operator falls through the `switch` to `return true`). The includes-only
variants read only `property` and `value`. -/
structure SearchFilter where
  property : String
  operator : String
  value : String
deriving DecidableEq, Repr

/-- JS `String(value)` for the scalars reaching the comparison code
(`null`/`undefined` are handled before this conversion). -/
def scalarToString : Scalar → String
  | .s v => v
  | .n v => toString v
  | .b true => "true"
  | .b false => "false"
  | .null => "null"

/-- JS `hay.includes(needle)` (substring containment). -/
def strIncludes (hay needle : String) : Bool :=
  decide (needle.data <:+: hay.data)

/-- One predicate of the six-operator engine (src/server.js lines 529-562):
empty `property` or empty `value` skips the filter; an absent or null
property value matches only `not_includes`/`not_equals`; otherwise both
sides are compared as lower-cased strings, except `exists`/`not_exists`
which test `hasOwnProperty`. -/
def matchesFilter (obj : Rec) (f : SearchFilter) : Bool :=
  if f.property = "" || f.value = "" then true
  else
    let objValue := jsIndex obj f.property
    if objValue = none || objValue = some Scalar.null then
      f.operator = "not_includes" || f.operator = "not_equals"
    else
      match objValue with
      | some v =>
        let strValue := (scalarToString v).toLower
        let searchValue := f.value.toLower
        if f.operator = "includes" then strIncludes strValue searchValue
        else if f.operator = "not_includes" then ! strIncludes strValue searchValue
        else if f.operator = "equals" then strValue == searchValue
        else if f.operator = "not_equals" then strValue != searchValue
        else if f.operator = "exists" then hasKey obj f.property
        else if f.operator = "not_exists" then ! hasKey obj f.property
        else true
      | none => true

/-- `filterObjects` — six-operator variant (src/server.js lines 522-565):
a missing/empty filter list returns the records unchanged, otherwise keep
the records on which every filter matches (AND semantics). -/
def filterObjectsOps (objects : List Rec) (filters : List SearchFilter) : List Rec :=
  if filters = [] then objects
  else objects.filter (fun obj => filters.all (matchesFilter obj))

/-- One predicate of the includes-only engine (src/server.js lines
369-386, src/public/app.js lines 409-423): an absent or null value never
matches; otherwise case-insensitive substring containment. -/
def matchesIncl (obj : Rec) (f : SearchFilter) : Bool :=
  let objValue := jsIndex obj f.property
  if objValue = none || objValue = some Scalar.null then false
  else
    match objValue with
    | some v => strIncludes (scalarToString v).toLower f.value.toLower
    | none => false

/-- `filterObjects` — includes-only variant (src/server.js lines 357-388,
src/public/app.js lines 399-424): filters with empty `property` or
`value` are dropped first; if none remain the records are returned
unchanged. -/
def filterObjectsIncl (objects : List Rec) (filters : List SearchFilter) : List Rec :=
  if filters = [] then objects
  else
    let validFilters := filters.filter (fun f => f.property ≠ "" && f.value ≠ "")
    if validFilters = [] then objects
    else objects.filter (fun obj => validFilters.all (matchesIncl obj))

/-- `selectColumns(objects, columns)` (shared by the part files): an empty
column list returns the records unchanged, otherwise each record is
projected to `{ col: obj[col] }` rows in column order (missing columns are
assigned `undefined`). -/
def selectColumns (objects : List Rec) (columns : List String) : List Rec :=
  if columns = [] then objects
  else objects.map (fun obj =>
    columns.foldl (fun row col => setKey row col (jsIndex obj col)) [])

/-- The default projection of the richer variants
(src/server.js lines 238-240, src/unnamed/part_001, src/public/app.js
lines 482-484); note the `conrolTitle` spelling is the source's. -/
def defaultColumns : List String := ["fileName", "conrolTitle", "type", "className"]

/-- Column fallback of the richer search handlers:
`columns && columns.length > 0 ? columns : [defaults]` — `none` models an
absent field; an explicitly empty list also falls back. -/
def selectedColumnsV2 (columns : Option (List String)) : List String :=
  match columns with
  | some cs => if cs.length > 0 then cs else defaultColumns
  | none => defaultColumns

/-- Column fallback of the first in-memory variant
(src/server.js line 151): `columns || [defaults]` — any array, including
an empty one, is truthy in JS, so only an absent field falls back. Its
default column order also differs. -/
def selectedColumnsV1 (columns : Option (List String)) : List String :=
  match columns with
  | some cs => cs
  | none => ["controlTitle", "type", "className", "fileName"]

/-- The inline row projection of the first variant's search handler
(src/server.js lines 153-159), identical to one step of `selectColumns`. -/
def mapRowV1 (columns : List String) (obj : Rec) : Rec :=
  columns.foldl (fun row col => setKey row col (jsIndex obj col)) []

/-- One entry of the S3 listing kept by `listS3Files`: object key, derived
file name, and the last-modified marker. -/
structure S3File where
  key : String
  fileName : String
  lastModified : String
deriving DecidableEq, Repr

/-- One `fileMetadata` document: file name, change marker, record count
and sync timestamp. -/
structure FileMeta where
  fileName : String
  lastModified : String
  objectCount : Nat
  syncedAt : String
deriving DecidableEq, Repr

/-- The process-wide `metadata` summary document. -/
structure SyncMeta where
  lastSync : String
  fileCount : Nat
  objectCount : Nat
deriving DecidableEq, Repr

/-- The MongoDB state touched by the sync: the `objects`, `fileMetadata`
and `metadata` collections. -/
structure Store where
  objects : List Rec
  fileMeta : List FileMeta
  syncMeta : Option SyncMeta
deriving DecidableEq, Repr

/-- Lookup in the JS `Map` built by
`new Map(existingFiles.map(f => [f.fileName, f]))`: a later entry for the
same key overwrites an earlier one, so the last occurrence wins. -/
def lookupLast : List FileMeta → String → Option FileMeta
  | [], _ => none
  | x :: rest, name =>
    match lookupLast rest name with
    | some y => some y
    | none => if x.fileName = name then some x else none

/-- The Diff phase of `syncFromS3` (src/unnamed/part_001 lines 477-497):
a remote file is "to sync" when it is absent from the stored metadata or
its change marker differs; a stored file absent from the remote listing is
"to delete". -/
def computeDiff (s3Files : List S3File) (existingFiles : List FileMeta) :
    List S3File × List String :=
  let filesToSync := s3Files.filter (fun f =>
    match lookupLast existingFiles f.fileName with
    | none => true
    | some existing => existing.lastModified ≠ f.lastModified)
  let s3FileNames := s3Files.map S3File.fileName
  let filesToDelete :=
    (existingFiles.filter (fun f => ¬ s3FileNames.contains f.fileName)).map FileMeta.fileName
  (filesToSync, filesToDelete)

/-- `db.collection('objects').deleteMany({ fileName: { $in: names } })`. -/
def deleteObjectsByNames (objects : List Rec) (names : List String) : List Rec :=
  objects.filter (fun r => ¬ names.any (fun n => jsIndex r "fileName" = some (.s n)))

/-- `db.collection('objects').deleteMany({ fileName: name })`. -/
def deleteObjectsOfFile (objects : List Rec) (name : String) : List Rec :=
  objects.filter (fun r => ¬ jsIndex r "fileName" = some (.s name))

/-- `db.collection('fileMetadata').deleteMany({ fileName: { $in: names } })`. -/
def deleteMetaByNames (ms : List FileMeta) (names : List String) : List FileMeta :=
  ms.filter (fun m => ¬ names.contains m.fileName)

/-- `db.collection('fileMetadata').updateOne({ fileName }, { $set: ... },
{ upsert: true })`: replace the first document with that file name, or
insert the new document when none exists. -/
def upsertMeta : List FileMeta → FileMeta → List FileMeta
  | [], m => [m]
  | x :: rest, m =>
    if x.fileName = m.fileName then m :: rest else x :: upsertMeta rest m

/-- Fetching and flattening one remote file: `downloadFromS3` (which also
runs `JSON.parse`) composed with `extractObjects`. The `fetch` collaborator
returns `Except.error` for a download or parse failure. -/
def fetchAndExtract (fetch : String → Except Unit JVal) (f : S3File) :
    Except Unit (List Rec) :=
  match fetch f.key with
  | .error e => .error e
  | .ok json => extractObjects json f.fileName

/-- The Apply step for one file marked "to sync" (src/unnamed/part_001
lines 519-564): first delete the file's existing records, then download,
parse and flatten; on success insert the new records and upsert the file
metadata; a failure anywhere after the delete is caught, leaving the store
with the records already removed and the metadata untouched. -/
def applyFile (fetch : String → Except Unit JVal) (now : String)
    (st : Store) (f : S3File) : Store :=
  let afterDelete := { st with objects := deleteObjectsOfFile st.objects f.fileName }
  match fetchAndExtract fetch f with
  | .error _ => afterDelete
  | .ok objs =>
    { afterDelete with
      objects := afterDelete.objects ++ objs,
      fileMeta := upsertMeta afterDelete.fileMeta
        ⟨f.fileName, f.lastModified, objs.length, now⟩ }

/-- The Apply phase over all files marked "to sync". -/
def applyFiles (fetch : String → Except Unit JVal) (now : String) :
    List S3File → Store → Store
  | [], st => st
  | f :: rest, st => applyFiles fetch now rest (applyFile fetch now st f)

/-- Overwrite the single `metadata` summary document from the final
collection counts. -/
def updateSyncMeta (now : String) (st : Store) : Store :=
  { st with syncMeta := some ⟨now, st.fileMeta.length, st.objects.length⟩ }

/-- One full List→Diff→Apply pass of `syncFromS3`, with the remote listing
supplied by the caller: compute the diff, delete removed files' records
and metadata, apply every file marked "to sync", then rewrite the summary
document. -/
def syncPass (fetch : String → Except Unit JVal) (now : String)
    (st : Store) (s3Files : List S3File) : Store :=
  let diff := computeDiff s3Files st.fileMeta
  let afterDelete :=
    { st with
      objects := deleteObjectsByNames st.objects diff.2,
      fileMeta := deleteMetaByNames st.fileMeta diff.2 }
  updateSyncMeta now (applyFiles fetch now diff.1 afterDelete)

/-- The in-memory cache of the S3 variant (src/public/app.js second
document, lines 248-254). -/
structure MemCache where
  objects : List Rec
  fileCount : Nat
  timestamp : Option String
  loading : Bool
  error : Option String
deriving DecidableEq, Repr

/-- The cache at server start. -/
def initialCache : MemCache :=
  { objects := [], fileCount := 0, timestamp := none, loading := false, error := none }

/-- The outcome of one `loadFromS3` run, as seen by the cache. -/
inductive LoadAttempt where
  | success (objects : List Rec) (fileCount : Nat) (timestamp : String)
  | failure (message : String)
deriving DecidableEq, Repr

/-- The cache transition of `loadFromS3` (src/public/app.js lines
295-381): a run that finds a load already in flight is a no-op; a
successful run swaps in the new snapshot at the end; a failed run records
the error and clears the loading flag, leaving `objects` untouched. -/
def applyLoad (c : MemCache) (a : LoadAttempt) : MemCache :=
  if c.loading then c
  else
    match a with
    | .success objects fileCount timestamp =>
      { objects := objects, fileCount := fileCount, timestamp := some timestamp,
        loading := false, error := none }
    | .failure message =>
      { c with loading := false, error := some message }

/-- The result of the S3 variant's search route: either the 503
"not ready" error or a `{ count, columns, results }` payload. -/
inductive SearchOutcome where
  | notReady
  | ok (count : Nat) (columns : List String) (results : List Rec)
deriving DecidableEq, Repr

/-- The `/api/search` handler of the S3 in-memory variant
(src/public/app.js lines 471-493): reject with the not-ready error while
`cache.objects` is empty, otherwise filter, project, and answer. -/
def searchHandler (c : MemCache) (filters : List SearchFilter)
    (columns : Option (List String)) : SearchOutcome :=
  if c.objects.length = 0 then .notReady
  else
    let results := filterObjectsIncl c.objects filters
    let selectedColumns := selectedColumnsV2 columns
    let mappedResults := selectColumns results selectedColumns
    .ok mappedResults.length selectedColumns mappedResults

/-- `str.includes(',') || str.includes('"') || str.includes('\n')` —
the quoting test of `escapeCSV` (src/public/app.js lines 184, 316). -/
def needsQuote (s : List Char) : Bool :=
  s.contains ',' || s.contains '"' || s.contains '\n'

/-- `str.replace(/"/g, '""')`: double every double-quote. -/
def doubleQuotes : List Char → List Char
  | [] => []
  | c :: rest =>
    if c = '"' then '"' :: '"' :: doubleQuotes rest else c :: doubleQuotes rest

/-- Quote-and-escape one CSV field when it needs it, else leave it as is. -/
def escapeField (s : List Char) : List Char :=
  if needsQuote s then '"' :: (doubleQuotes s ++ ['"']) else s

/-- The text `String(value)` that `escapeCSV` renders for a cell:
`null`/`undefined` become the empty field. -/
def csvCellText : Option Scalar → List Char
  | none => []
  | some Scalar.null => []
  | some v => (scalarToString v).data

/-- `escapeCSV(value)` (src/public/app.js lines 181-188): empty for
`null`/`undefined`, otherwise the string form, quoted with internal
quotes doubled when it contains a comma, double-quote or newline. -/
def escapeCSVCell : Option Scalar → List Char
  | none => []
  | some Scalar.null => []
  | some v => escapeField (scalarToString v).data

/-- `fields.join(',')`. -/
def joinSep : List (List Char) → List Char
  | [] => []
  | [f] => f
  | f :: rest => f ++ ',' :: joinSep rest

/-- The data lines of `downloadCSV`: one line per result row, each the
comma-join of the escaped cells of the requested columns, terminated by
`'\n'`. -/
def csvBody (columns : List String) : List Rec → List Char
  | [] => []
  | row :: rest =>
    joinSep (columns.map (fun col => escapeCSVCell (jsIndex row col)))
      ++ '\n' :: csvBody columns rest

/-- The full CSV document of `downloadCSV` (src/public/app.js lines
190-195): the raw comma-join of the column names, a newline, then the
data lines. -/
def makeCSV (columns : List String) (rows : List Rec) : List Char :=
  joinSep (columns.map String.data) ++ '\n' :: csvBody columns rows

mutual
/-- A standard CSV reader (RFC-4180 field syntax with LF record
terminators, matching the `'\n'` the writer emits), as a streaming
scanner over the characters; this function reads the inside of a quoted
field. `field` and `record` accumulate the current field and record,
`acc` the finished records. A doubled quote is one literal quote; a lone
quote closes the field; input ending inside a quote is a parse error. -/
def csvScanQ : List Char → List Char → List (List Char) →
    List (List (List Char)) → Option (List (List (List Char)))
  | [], _, _, _ => none
  | '"' :: '"' :: rest, field, record, acc =>
    csvScanQ rest (field ++ ['"']) record acc
  | '"' :: rest, field, record, acc => csvScanU rest field record acc
  | c :: rest, field, record, acc => csvScanQ rest (field ++ [c]) record acc

/-- The reader outside of quotes: a comma ends the field, a newline ends
the record, a quote at the start of a field opens a quoted field, and a
final record without a trailing newline is still emitted. -/
def csvScanU : List Char → List Char → List (List Char) →
    List (List (List Char)) → Option (List (List (List Char)))
  | [], field, record, acc =>
    if field = [] ∧ record = [] then some acc
    else some (acc ++ [record ++ [field]])
  | c :: rest, field, record, acc =>
    if c = ',' then csvScanU rest [] (record ++ [field]) acc
    else if c = '\n' then csvScanU rest [] [] (acc ++ [record ++ [field]])
    else if c = '"' ∧ field = [] then csvScanQ rest [] record acc
    else csvScanU rest (field ++ [c]) record acc
end

/-- Parse a CSV document into its records of fields. -/
def parseCSV (cs : List Char) : Option (List (List (List Char))) :=
  csvScanU cs [] [] []

mutual
/-- The entries of every node visited by the flattener's traversal, in
visitation order: the specification-side companion of `traverseList`
(each visited node contributes its `Object.entries` list where
`traverseList` contributes its flat record). -/
def nodesList : JArr → Except Unit (List (List (String × JVal)))
  | .nil => .ok []
  | .cons x rest => do
    let es ← jsEntries x
    let children ←
      if isGroupType (jsGetProp x "type") then nodesGroup x
      else .ok []
    let restNodes ← nodesList rest
    .ok (es :: (children ++ restNodes))

/-- Companion of `groupChildren`. -/
def nodesGroup : JVal → Except Unit (List (List (String × JVal)))
  | .obj fs => nodesFields fs
  | _ => .ok []

/-- Companion of `fieldsChildren`. -/
def nodesFields : JFields → Except Unit (List (List (String × JVal)))
  | .nil => .ok []
  | .cons k v rest =>
    if k = "objects" then
      if jsTruthy v then nodesVal v else .ok []
    else nodesFields rest

/-- Companion of `traverseVal`. -/
def nodesVal : JVal → Except Unit (List (List (String × JVal)))
  | .arr xs => nodesList xs
  | _ => .ok []
end

/-- Companion of `extractObjects`: the entries of every node it visits. -/
def extractNodes (json : JVal) : Except Unit (List (List (String × JVal))) :=
  match json with
  | .null => .error ()
  | _ =>
    match jsGetProp json "body" with
    | none => .ok []
    | some body =>
      if jsTruthy body then
        match jsGetProp body "objects" with
        | none => .ok []
        | some objs =>
          if jsTruthy objs then nodesVal objs else .ok []
      else .ok []

/-- A rect-typed leaf node used by concrete witnesses. -/
def nodeRect : JVal :=
  .obj (.cons "type" (.s "rect") (.cons "className" (.s "Box") .nil))

/-- The fields of a group node holding one rect child, as in the
specification's end-to-end scenario. -/
def nodeGroupFields : JFields :=
  .cons "type" (.s "group") (.cons "name" (.s "G")
    (.cons "objects" (.arr (.cons nodeRect .nil)) .nil))

/-- A group node holding one rect child. -/
def nodeGroup : JVal := .obj nodeGroupFields

/-- The two flat records the group node flattens to. -/
def recsGroup : List Rec :=
  [[("fileName", some (.s "f1.json")), ("type", some (.s "group")), ("name", some (.s "G"))],
   [("fileName", some (.s "f1.json")), ("type", some (.s "rect")), ("className", some (.s "Box"))]]

/-- The document `{body:{objects:[nodeGroup]}}` of the specification's
end-to-end scenario. -/
def docGroup : JVal :=
  .obj (.cons "body" (.obj (.cons "objects" (.arr (.cons nodeGroup .nil)) .nil)) .nil)

/-- A fetch collaborator that fails on every key (download or parse
error). -/
def fetchFail : String → Except Unit JVal := fun _ => .error ()

/-- A fetch collaborator that fails for `"k-a"` and returns the group
document for every other key. -/
def fetchAllButA : String → Except Unit JVal := fun key =>
  if key = "k-a" then .error () else .ok docGroup

/-- A previously synced flat record of file `template_a.json`. -/
def recordA : Rec :=
  [("fileName", some (.s "template_a.json")), ("type", some (.s "rect"))]

/-- The listing entry of `template_a.json`. -/
def s3FileA : S3File := ⟨"k-a", "template_a.json", "2024-02-01T00:00:00Z"⟩

/-- The listing entry of `template_b.json`. -/
def s3FileB : S3File := ⟨"k-b", "template_b.json", "2024-02-01T00:00:00Z"⟩

/-- A store holding the previously synced data of `template_a.json`
(synced at an older change marker). -/
def storeWithA : Store :=
  { objects := [recordA],
    fileMeta := [⟨"template_a.json", "2024-01-01T00:00:00Z", 1, "t0"⟩],
    syncMeta := none }

/-- The empty store. -/
def storeEmpty : Store := { objects := [], fileMeta := [], syncMeta := none }

/-- Whether fetching and flattening a file succeeds. -/
def fetchOk (fetch : String → Except Unit JVal) (f : S3File) : Bool :=
  match fetchAndExtract fetch f with
  | .ok _ => true
  | .error _ => false

/-- The `fileMetadata` collection after the Apply phase, in isolation:
each successfully fetched file upserts its new metadata document, a
failed file leaves the collection untouched (the record count stored is
the number of freshly flattened records). -/
def applyMetas (fetch : String → Except Unit JVal) (now : String) :
    List S3File → List FileMeta → List FileMeta
  | [], fm => fm
  | f :: rest, fm =>
    applyMetas fetch now rest
      (match fetchAndExtract fetch f with
        | .error _ => fm
        | .ok objs => upsertMeta fm ⟨f.fileName, f.lastModified, objs.length, now⟩)

/-- The records contributed by each element of an `objects` array
separately: element `i` of the result holds the records that the
traversal emits for node `i` and its descendants (each element is
traversed as a one-element array). -/
def childrenRecords (fileName : String) : List JVal → Except Unit (List (List Rec))
  | [] => .ok []
  | c :: rest => do
    let h ← traverseList fileName (.cons c .nil)
    let t ← childrenRecords fileName rest
    .ok (h :: t)

/-- The row produced by projecting `recordA` onto the default columns. -/
def projRowA : Rec :=
  [("fileName", some (.s "template_a.json")), ("conrolTitle", none),
   ("type", some (.s "rect")), ("className", none)]

/-! ### Helper lemmas about records and key assignment -/

theorem jsIndex_nil (a : String) : jsIndex [] a = none := rfl

theorem jsIndex_cons (k' : String) (v' : Option Scalar) (tl : Rec) (a : String) :
    jsIndex ((k', v') :: tl) a = if a = k' then v' else jsIndex tl a := by
  by_cases h : a = k'
  · simp [jsIndex, List.lookup, h]
  · simp [jsIndex, List.lookup, h, show (a == k') = false by simpa using h]

theorem mem_recKeys_setKey (r : Rec) (k : String) (v : Option Scalar) (a : String) :
    a ∈ recKeys (setKey r k v) ↔ a ∈ recKeys r ∨ a = k := by
  induction r with
  | nil => simp [setKey, recKeys]
  | cons hd tl ih =>
    obtain ⟨k', v'⟩ := hd
    by_cases hk : k' = k
    · subst hk
      simp [setKey, recKeys]
      tauto
    · simp only [setKey, if_neg hk, recKeys, List.map_cons, List.mem_cons]
      rw [recKeys] at ih
      rw [ih]
      tauto

theorem jsIndex_setKey_self (r : Rec) (k : String) (v : Option Scalar) :
    jsIndex (setKey r k v) k = v := by
  induction r with
  | nil => simp [setKey, jsIndex_cons, jsIndex_nil]
  | cons hd tl ih =>
    obtain ⟨k', v'⟩ := hd
    by_cases hk : k' = k
    · subst hk
      simp [setKey, jsIndex_cons]
    · simp [setKey, if_neg hk, jsIndex_cons, Ne.symm hk, ih]

theorem jsIndex_setKey_ne (r : Rec) (k : String) (v : Option Scalar) (a : String)
    (h : a ≠ k) : jsIndex (setKey r k v) a = jsIndex r a := by
  induction r with
  | nil => simp [setKey, jsIndex_cons, jsIndex_nil, h]
  | cons hd tl ih =>
    obtain ⟨k', v'⟩ := hd
    by_cases hk : k' = k
    · subst hk
      simp [setKey, jsIndex_cons, h]
    · by_cases ha : a = k'
      · subst ha
        simp [setKey, if_neg hk, jsIndex_cons]
      · simp [setKey, if_neg hk, jsIndex_cons, ha, ih]

theorem hasKey_iff_mem (r : Rec) (k : String) :
    hasKey r k = true ↔ k ∈ recKeys r := by
  simp [hasKey, List.contains]

theorem jsIndex_isSome_mem (r : Rec) (k : String) (v : Scalar)
    (h : jsIndex r k = some v) : k ∈ recKeys r := by
  induction r with
  | nil => simp [jsIndex_nil] at h
  | cons hd tl ih =>
    obtain ⟨k', v'⟩ := hd
    rw [jsIndex_cons] at h
    by_cases ha : k = k'
    · subst ha
      simp [recKeys]
    · rw [if_neg ha] at h
      rw [recKeys, List.map_cons, List.mem_cons]
      exact Or.inr (ih h)

/-! ### C9 — filtering is idempotent -/

/-- C9: for every predicate list and record list, applying the filter
twice gives the same result as applying it once, in both the six-operator
engine and the includes-only engine (each predicate's verdict depends only
on the record, so a second pass keeps everything the first pass kept). -/
theorem filter_idempotent_C9 (objects : List Rec) (filters : List SearchFilter) :
    filterObjectsOps (filterObjectsOps objects filters) filters
      = filterObjectsOps objects filters
    ∧ filterObjectsIncl (filterObjectsIncl objects filters) filters
      = filterObjectsIncl objects filters := by
  constructor
  · by_cases h : filters = []
    · simp [filterObjectsOps, h]
    · simp only [filterObjectsOps, if_neg h]
      rw [List.filter_filter]
      simp
  · by_cases h : filters = []
    · simp [filterObjectsIncl, h]
    · simp only [filterObjectsIncl, if_neg h]
      by_cases hv :
          List.filter (fun f => decide (f.property ≠ "") && decide (f.value ≠ "")) filters = []
      · simp only [if_pos hv]
      · simp only [if_neg hv]
        rw [List.filter_filter]
        simp

/-! ### C10 — a node's own `fileName` property overwrites the file tag -/

theorem jsIndex_foldl_cleanStep_untouched (es : List (String × JVal)) :
    ∀ (acc : Rec) (k : String), k ∉ es.map Prod.fst →
      jsIndex (es.foldl cleanStep acc) k = jsIndex acc k := by
  induction es with
  | nil => intro acc k _; rfl
  | cons hd tl ih =>
    intro acc k hk
    simp only [List.map_cons, List.mem_cons] at hk
    push_neg at hk
    rw [List.foldl_cons, ih _ k hk.2]
    rw [cleanStep]
    by_cases hobj : hd.1 = "objects"
    · rw [if_pos hobj]
    · rw [if_neg hobj, jsIndex_setKey_ne _ _ _ _ hk.1]

theorem jsIndex_foldl_cleanStep_fileName (es : List (String × JVal)) :
    ∀ (acc : Rec) (w : JVal), (es.map Prod.fst).Nodup →
      es.lookup "fileName" = some w →
      jsIndex (es.foldl cleanStep acc) "fileName" = some (flattenValue w) := by
  induction es with
  | nil => intro acc w _ hw; simp [List.lookup] at hw
  | cons hd tl ih =>
    intro acc w hnd hw
    obtain ⟨k0, v0⟩ := hd
    by_cases hk : "fileName" = k0
    · subst hk
      simp only [List.lookup, beq_self_eq_true] at hw
      rw [Option.some_inj] at hw
      subst hw
      simp only [List.map_cons, List.nodup_cons] at hnd
      rw [List.foldl_cons, jsIndex_foldl_cleanStep_untouched tl _ _ hnd.1]
      rw [cleanStep]
      simp only [if_neg (by decide : ¬ ("fileName" : String) = "objects")]
      exact jsIndex_setKey_self acc "fileName" _
    · rw [List.foldl_cons]
      have hlk : tl.lookup "fileName" = some w := by
        simpa [List.lookup, show (("fileName" : String) == k0) = false by simpa using hk]
          using hw
      simp only [List.map_cons, List.nodup_cons] at hnd
      exact ih _ w hnd.2 hlk

/-- C10: when a source node itself carries a scalar property literally
named `fileName`, the flattened record's `fileName` value is the node's
own value (copied verbatim), not the file identifier passed to the
flattener — the tag is written first and the node's entries are assigned
afterwards, overwriting it. -/
theorem node_fileName_overwrites_tag_C10 (fid : String)
    (es : List (String × JVal)) (w : JVal)
    (hnd : (es.map Prod.fst).Nodup)
    (hw : es.lookup "fileName" = some w)
    (_hscalar : isScalarJV w = true) :
    jsIndex (mkCleanEntry fid es) "fileName" = some (flattenValue w) := by
  rw [mkCleanEntry]
  exact jsIndex_foldl_cleanStep_fileName es _ w hnd hw

/-- Witness for C10: a node `{type:"rect", fileName:"custom.json"}`
flattened with file identifier `"real.json"` keeps its own
`fileName` value. -/
theorem node_fileName_overwrites_tag_C10_witness :
    ((([("type", JVal.s "rect"), ("fileName", JVal.s "custom.json")].map Prod.fst).Nodup
      ∧ [("type", JVal.s "rect"), ("fileName", JVal.s "custom.json")].lookup "fileName"
          = some (JVal.s "custom.json")
      ∧ isScalarJV (JVal.s "custom.json") = true)
     ∧ jsIndex (mkCleanEntry "real.json"
          [("type", JVal.s "rect"), ("fileName", JVal.s "custom.json")]) "fileName"
        = some (Scalar.s "custom.json")) :=
  ⟨⟨by decide, rfl, rfl⟩,
    node_fileName_overwrites_tag_C10 "real.json"
      [("type", JVal.s "rect"), ("fileName", JVal.s "custom.json")]
      (JVal.s "custom.json") (by decide) rfl rfl⟩

/-! ### C3 — existence-operator and absent-property semantics -/

/-- C3 counterexample: on a record lacking property `"p"`, the predicate
`{property:"p", operator:"not_exists", value:"x"}` evaluates **false**
(the absent-property branch special-cases only `not_includes` and
`not_equals`), while the claim says `not_exists` evaluates true there. -/
theorem filter_exists_semantics_C3_counterexample :
    jsIndex [(("fileName" : String), some (Scalar.s "a.json"))] "p" = none
    ∧ matchesFilter [(("fileName" : String), some (Scalar.s "a.json"))]
        ⟨"p", "not_exists", "x"⟩ = false :=
  ⟨rfl, rfl⟩

/-- C3 (amended): a predicate with empty `value` is skipped (evaluates
true) for every operator, including `exists`/`not_exists`. With a
non-empty `value`, when the property is absent or null-valued,
`not_includes` and `not_equals` evaluate true but `exists`, `not_exists`,
`includes` and `equals` all evaluate false (so `not_exists` never matches
a record lacking the property); when the property is present with a
non-null value, `exists` evaluates true and `not_exists` false. Hence
`exists`/`not_exists` test presence-of-a-non-null-value rather than key
presence, and ignore the content (but not the emptiness) of `value`. -/
theorem filter_exists_semantics_C3 (r : Rec) (p v : String)
    (hp : p ≠ "") (hv : v ≠ "") :
    (matchesFilter r ⟨p, "exists", ""⟩ = true
      ∧ matchesFilter r ⟨p, "not_exists", ""⟩ = true)
    ∧ ((jsIndex r p = none ∨ jsIndex r p = some Scalar.null) →
        matchesFilter r ⟨p, "not_includes", v⟩ = true
        ∧ matchesFilter r ⟨p, "not_equals", v⟩ = true
        ∧ matchesFilter r ⟨p, "not_exists", v⟩ = false
        ∧ matchesFilter r ⟨p, "exists", v⟩ = false
        ∧ matchesFilter r ⟨p, "includes", v⟩ = false
        ∧ matchesFilter r ⟨p, "equals", v⟩ = false)
    ∧ (∀ w : Scalar, jsIndex r p = some w → w ≠ Scalar.null →
        matchesFilter r ⟨p, "exists", v⟩ = true
        ∧ matchesFilter r ⟨p, "not_exists", v⟩ = false) := by
  refine ⟨⟨by simp [matchesFilter], by simp [matchesFilter]⟩, ?_, ?_⟩
  · intro habs
    rcases habs with h | h <;>
      exact ⟨by simp [matchesFilter, hp, hv, h], by simp [matchesFilter, hp, hv, h],
        by simp [matchesFilter, hp, hv, h], by simp [matchesFilter, hp, hv, h],
        by simp [matchesFilter, hp, hv, h], by simp [matchesFilter, hp, hv, h]⟩
  · intro w hw hwn
    have hk : hasKey r p = true :=
      (hasKey_iff_mem r p).mpr (jsIndex_isSome_mem r p w hw)
    exact ⟨by simp [matchesFilter, hp, hv, hw, hwn, hk],
      by simp [matchesFilter, hp, hv, hw, hwn, hk]⟩

/-- Witness for C3 (amended) at a concrete record and predicate. -/
theorem filter_exists_semantics_C3_witness :
    (("missing" : String) ≠ "" ∧ ("x" : String) ≠ "")
    ∧ matchesFilter [(("type" : String), some (Scalar.s "rect"))]
        ⟨"missing", "not_includes", "x"⟩ = true :=
  ⟨⟨by decide, by decide⟩,
    ((filter_exists_semantics_C3 [(("type" : String), some (Scalar.s "rect"))]
        "missing" "x" (by decide) (by decide)).2.1 (Or.inl rfl)).1⟩

/-! ### C5 — default projection for an empty column list -/

/-- C5 counterexample: in the first in-memory variant the fallback is
`columns || defaults`; an empty array is truthy, so a query with
`columns: []` is answered with **no** columns at all rather than with the
default projection. -/
theorem default_columns_C5_counterexample :
    selectedColumnsV1 (some []) = []
    ∧ mapRowV1 (selectedColumnsV1 (some [])) recordA = []
    ∧ ([] : List String) ≠ defaultColumns :=
  ⟨rfl, rfl, by decide⟩

theorem recKeys_setKey_notMem (r : Rec) (k : String) (v : Option Scalar)
    (h : k ∉ recKeys r) : recKeys (setKey r k v) = recKeys r ++ [k] := by
  induction r with
  | nil => simp [setKey, recKeys]
  | cons hd tl ih =>
    obtain ⟨k', v'⟩ := hd
    simp only [recKeys, List.map_cons, List.mem_cons] at h
    push_neg at h
    rw [setKey, if_neg (by exact fun hc => h.1 hc.symm)]
    simp only [recKeys, List.map_cons, List.cons_append, List.cons.injEq, true_and]
    exact ih h.2

theorem recKeys_foldl_setKey (f : String → Option Scalar) (cols : List String) :
    ∀ r : Rec, (∀ c ∈ cols, c ∉ recKeys r) → cols.Nodup →
      recKeys (cols.foldl (fun row col => setKey row col (f col)) r)
        = recKeys r ++ cols := by
  induction cols with
  | nil => intro r _ _; simp
  | cons c tl ih =>
    intro r hdisj hnd
    rw [List.foldl_cons]
    have hc : c ∉ recKeys r := hdisj c (List.mem_cons_self c tl)
    have hkeys := recKeys_setKey_notMem r c (f c) hc
    rw [List.nodup_cons] at hnd
    have htl : ∀ c' ∈ tl, c' ∉ recKeys (setKey r c (f c)) := by
      intro c' hc'
      rw [hkeys]
      simp only [List.mem_append, List.mem_singleton]
      rintro (h | h)
      · exact hdisj c' (List.mem_cons_of_mem c hc') h
      · exact hnd.1 (h ▸ hc')
    rw [ih _ htl hnd.2, hkeys]
    simp

/-- C5 (amended): in the richer variants (the `presetParser`-based server
and the S3 in-memory server), an empty `columns` list falls back to the
default projection `fileName, conrolTitle, type, className`, and each
result row then has exactly those keys in that order; in the first
in-memory variant only an absent `columns` field falls back (its default
also orders `fileName` last), while an explicitly empty list yields rows
with no columns. -/
theorem default_columns_C5 (objects : List Rec) :
    selectedColumnsV2 (some []) = defaultColumns
    ∧ selectedColumnsV2 none = defaultColumns
    ∧ selectedColumnsV1 none = ["controlTitle", "type", "className", "fileName"]
    ∧ selectedColumnsV1 (some []) = []
    ∧ ∀ row ∈ selectColumns objects defaultColumns, recKeys row = defaultColumns := by
  refine ⟨rfl, rfl, rfl, rfl, ?_⟩
  intro row hrow
  rw [selectColumns, if_neg (by decide : ¬ (defaultColumns = []))] at hrow
  rw [List.mem_map] at hrow
  obtain ⟨obj, _, hobj⟩ := hrow
  subst hobj
  have h := recKeys_foldl_setKey (jsIndex obj) defaultColumns []
    (by intro c _; simp [recKeys]) (by decide)
  simpa using h

/-- Witness for C5 (amended): projecting a concrete record set onto the
default columns produces rows whose key list is exactly the default. -/
theorem default_columns_C5_witness :
    (projRowA ∈ selectColumns [recordA] defaultColumns)
    ∧ recKeys projRowA = defaultColumns :=
  ⟨by decide, (default_columns_C5 [recordA]).2.2.2.2 projRowA (by decide)⟩

/-! ### C6 — querying before any successful load is NotReady -/

theorem failures_foldl_objects (failures : List String) :
    ∀ c : MemCache,
      ((failures.map LoadAttempt.failure).foldl applyLoad c).objects = c.objects := by
  induction failures with
  | nil => intro c; rfl
  | cons m tl ih =>
    intro c
    rw [List.map_cons, List.foldl_cons, ih]
    by_cases h : c.loading <;> simp [applyLoad, h]

/-- C6: a search request arriving after any number of failed load
attempts (and before any successful one) is answered with the distinct
NotReady outcome, which is a different constructor from every successful
`ok` result — in particular it is not an empty result set. -/
theorem notReady_before_first_load_C6 (failures : List String)
    (filters : List SearchFilter) (columns : Option (List String)) :
    searchHandler ((failures.map LoadAttempt.failure).foldl applyLoad initialCache)
        filters columns = SearchOutcome.notReady
    ∧ ∀ (count : Nat) (cols : List String) (results : List Rec),
        SearchOutcome.notReady ≠ SearchOutcome.ok count cols results := by
  constructor
  · have hobj : ((failures.map LoadAttempt.failure).foldl applyLoad initialCache).objects
        = [] := by
      rw [failures_foldl_objects]
      rfl
    simp [searchHandler, hobj]
  · intro count cols results
    simp

/-! ### C1 — per-file failure handling in the Apply phase -/

/-- C1 counterexample: syncing `[s3FileA, s3FileB]` where the fetch of
`template_a.json` fails: the failure is caught (file B is still
processed and gets metadata), but `template_a.json`'s previously-synced
record is gone after the pass — the Apply step deletes a file's records
before fetching it, so a fetch failure does remove them. -/
theorem sync_failure_skips_file_C1_counterexample :
    fetchAndExtract fetchAllButA s3FileA = .error ()
    ∧ recordA ∈ storeWithA.objects
    ∧ recordA ∉ (applyFiles fetchAllButA "t1" [s3FileA, s3FileB] storeWithA).objects
    ∧ (lookupLast (applyFiles fetchAllButA "t1" [s3FileA, s3FileB] storeWithA).fileMeta
        "template_b.json").isSome = true :=
  ⟨rfl, by decide, by decide, by decide⟩

/-- C1 (amended): a per-file fetch/parse failure during the Apply phase
is caught and the file skipped without aborting the remaining files —
applying `f :: rest` when `f`'s fetch fails equals applying `rest` to the
store with only `f`'s records deleted. The failed file's
previously-synced flat records do **not** remain: they are deleted before
the fetch is attempted (its file metadata is left untouched, so the stale
change marker makes the next pass retry the file). -/
theorem sync_failure_skips_file_C1 (fetch : String → Except Unit JVal)
    (now : String) (f : S3File) (rest : List S3File) (st : Store)
    (hfail : fetchAndExtract fetch f = .error ()) :
    applyFiles fetch now (f :: rest) st
      = applyFiles fetch now rest
          { st with objects := deleteObjectsOfFile st.objects f.fileName } := by
  rw [applyFiles]
  congr 1
  rw [applyFile, hfail]

/-- Witness for C1 (amended). -/
theorem sync_failure_skips_file_C1_witness :
    (fetchAndExtract fetchFail s3FileA = .error ())
    ∧ applyFiles fetchFail "t1" [s3FileA] storeWithA
        = applyFiles fetchFail "t1" []
            { storeWithA with
              objects := deleteObjectsOfFile storeWithA.objects s3FileA.fileName } :=
  ⟨rfl, sync_failure_skips_file_C1 fetchFail "t1" s3FileA [] storeWithA rfl⟩

/-! ### Traversal decomposition lemmas (C7, C2) -/

theorem except_bind_ok {ε α β : Type} (a : α) (f : α → Except ε β) :
    (Except.ok a >>= f) = f a := rfl

theorem except_bind_error {ε α β : Type} (e : ε) (f : α → Except ε β) :
    ((Except.error e : Except ε α) >>= f) = Except.error e := rfl

theorem except_map_ok {ε α β : Type} (f : α → β) (a : α) :
    Except.map f (Except.ok a : Except ε α) = Except.ok (f a) := rfl

theorem except_map_error {ε α β : Type} (f : α → β) (e : ε) :
    Except.map f (Except.error e : Except ε α) = Except.error e := rfl

theorem fieldsChildren_eq (fid : String) : ∀ fs : JFields,
    fieldsChildren fid fs =
      (match jfLookup fs "objects" with
        | some v => if jsTruthy v then traverseVal fid v else .ok []
        | none => .ok [])
  | .nil => rfl
  | .cons k v rest => by
    rw [fieldsChildren, jfLookup]
    by_cases hk : k = "objects"
    · simp [hk]
    · simp only [if_neg hk]
      exact fieldsChildren_eq fid rest

theorem traverseList_single (fid : String) (c : JVal) :
    traverseList fid (.cons c .nil) = (do
      let es ← jsEntries c
      let ch ← if isGroupType (jsGetProp c "type") then groupChildren fid c else .ok []
      .ok (mkCleanEntry fid es :: ch)) := by
  rw [traverseList]
  cases hes : jsEntries c with
  | error e => rfl
  | ok es =>
    rw [except_bind_ok, except_bind_ok]
    by_cases hg : isGroupType (jsGetProp c "type") = true
    · rw [if_pos hg, if_pos hg]
      cases hgc : groupChildren fid c with
      | error e => rfl
      | ok ch => simp [traverseList, except_bind_ok]
    · rw [if_neg hg, if_neg hg]
      simp [traverseList, except_bind_ok]

theorem traverseList_eq_flatten (fid : String) : ∀ cs : JArr,
    traverseList fid cs = Except.map List.flatten (childrenRecords fid cs.toList)
  | .nil => rfl
  | .cons c rest => by
    have ih := traverseList_eq_flatten fid rest
    rw [JArr.toList, childrenRecords, traverseList, traverseList_single]
    cases hes : jsEntries c with
    | error e =>
      simp [hes, except_bind_ok, except_bind_error, except_map_ok, except_map_error]
    | ok es =>
      by_cases hg : isGroupType (jsGetProp c "type") = true
      · cases hgc : groupChildren fid c with
        | error e =>
          simp [hes, hg, hgc, except_bind_ok, except_bind_error, except_map_ok, except_map_error]
        | ok ch =>
          rw [ih]
          cases hcr : childrenRecords fid rest.toList with
          | error e =>
            simp [hes, hg, hgc, hcr, except_bind_ok, except_bind_error,
              except_map_ok, except_map_error]
          | ok t =>
            simp [hes, hg, hgc, hcr, except_bind_ok, except_bind_error,
              except_map_ok, except_map_error]
      · rw [ih]
        cases hcr : childrenRecords fid rest.toList with
        | error e =>
          simp [hes, hg, hcr, except_bind_ok, except_bind_error,
            except_map_ok, except_map_error]
        | ok t =>
          simp [hes, hg, hcr, except_bind_ok, except_bind_error,
            except_map_ok, except_map_error]

/-! ### C7 — group nodes are flattened pre-order -/

/-- C7: for a node whose `type` is `"group"` with children array `cs`,
the traversal emits the node's own record first and the records of its
children (in order, each with the same file identifier) immediately
after, so the number of records contributed by the node and its
descendants is `1 +` the sum of the records contributed by each child. -/
theorem group_preorder_C7 (fid : String) (fs : JFields) (cs : JArr) (recs : List Rec)
    (htype : isGroupType (jfLookup fs "type") = true)
    (hobjs : jfLookup fs "objects" = some (.arr cs))
    (h : traverseList fid (.cons (.obj fs) .nil) = .ok recs) :
    ∃ perChild : List (List Rec),
      childrenRecords fid cs.toList = .ok perChild
      ∧ recs = mkCleanEntry fid fs.toList :: perChild.flatten
      ∧ recs.length = 1 + (perChild.map List.length).sum := by
  rw [traverseList_single] at h
  rw [show jsEntries (.obj fs) = .ok fs.toList from rfl, except_bind_ok] at h
  rw [show jsGetProp (.obj fs) "type" = jfLookup fs "type" from rfl, if_pos htype] at h
  rw [show groupChildren fid (.obj fs) = fieldsChildren fid fs from rfl] at h
  rw [fieldsChildren_eq, hobjs] at h
  simp only [jsTruthy, traverseVal, if_true] at h
  rw [traverseList_eq_flatten] at h
  cases hcr : childrenRecords fid cs.toList with
  | error e =>
    rw [hcr, except_map_error, except_bind_error] at h
    exact absurd h (by simp)
  | ok perChild =>
    rw [hcr, except_map_ok, except_bind_ok] at h
    have hrecs : recs = mkCleanEntry fid fs.toList :: perChild.flatten := by
      have hs := h.symm
      rwa [Except.ok.injEq] at hs
    refine ⟨perChild, rfl, hrecs, ?_⟩
    rw [hrecs]
    simp only [List.length_cons, List.length_flatten]
    omega

/-- Witness for C7: the specification's group-with-one-rect example. -/
theorem group_preorder_C7_witness :
    (isGroupType (jfLookup nodeGroupFields "type") = true
     ∧ jfLookup nodeGroupFields "objects" = some (.arr (.cons nodeRect .nil))
     ∧ traverseList "f1.json" (.cons (.obj nodeGroupFields) .nil) = .ok recsGroup)
    ∧ ∃ perChild : List (List Rec),
        childrenRecords "f1.json" (JArr.cons nodeRect .nil).toList = .ok perChild
        ∧ recsGroup = mkCleanEntry "f1.json" nodeGroupFields.toList :: perChild.flatten
        ∧ recsGroup.length = 1 + (perChild.map List.length).sum :=
  ⟨⟨rfl, rfl, rfl⟩,
    group_preorder_C7 "f1.json" nodeGroupFields (JArr.cons nodeRect .nil) recsGroup rfl rfl rfl⟩

/-! ### C2 - flat records never contain the `objects` key -/


theorem mem_recKeys_foldl_cleanStep (es : List (String × JVal)) :
    ∀ (acc : Rec) (k : String),
      k ∈ recKeys (es.foldl cleanStep acc) ↔
        k ∈ recKeys acc ∨ (k ∈ es.map Prod.fst ∧ k ≠ "objects") := by
  induction es with
  | nil => simp
  | cons hd tl ih =>
    intro acc k
    rw [List.foldl_cons, ih, cleanStep]
    by_cases hobj : hd.1 = "objects"
    · rw [if_pos hobj]
      simp only [List.map_cons, List.mem_cons, hobj]
      constructor
      · tauto
      · rintro (h | ⟨h1 | h1, h2⟩) <;> tauto
    · rw [if_neg hobj]
      simp only [List.map_cons, List.mem_cons]
      rw [mem_recKeys_setKey]
      by_cases hk : k = hd.1
      · subst hk
        tauto
      · tauto

theorem mem_recKeys_mkCleanEntry (fid : String) (es : List (String × JVal)) (k : String) :
    k ∈ recKeys (mkCleanEntry fid es) ↔
      (k = "fileName" ∨ (k ∈ es.map Prod.fst ∧ k ≠ "objects")) := by
  rw [mkCleanEntry, mem_recKeys_foldl_cleanStep]
  simp [recKeys]

mutual
theorem traverseList_eq_nodesList (fid : String) : ∀ xs : JArr,
    traverseList fid xs = Except.map (List.map (mkCleanEntry fid)) (nodesList xs)
  | .nil => rfl
  | .cons x rest => by
    have ihg := groupChildren_eq_nodesGroup fid x
    have ihr := traverseList_eq_nodesList fid rest
    rw [traverseList, nodesList]
    cases hes : jsEntries x with
    | error e =>
      simp [hes, except_bind_error, except_map_error]
    | ok es =>
      simp only [except_bind_ok]
      by_cases hg : isGroupType (jsGetProp x "type") = true
      · rw [if_pos hg, if_pos hg, ihg]
        cases hng : nodesGroup x with
        | error e => simp [except_bind_error, except_map_error]
        | ok chn =>
          simp only [except_map_ok, except_bind_ok]
          rw [ihr]
          cases hnr : nodesList rest with
          | error e => simp [except_bind_error, except_map_error]
          | ok tn => simp [except_map_ok, except_bind_ok]
      · rw [if_neg hg, if_neg hg]
        rw [ihr]
        cases hnr : nodesList rest with
        | error e => simp [except_bind_error, except_map_error]
        | ok tn => simp [except_map_ok, except_bind_ok]

theorem groupChildren_eq_nodesGroup (fid : String) : ∀ x : JVal,
    groupChildren fid x = Except.map (List.map (mkCleanEntry fid)) (nodesGroup x)
  | .obj fs => fieldsChildren_eq_nodesFields fid fs
  | .s _ => rfl
  | .n _ => rfl
  | .b _ => rfl
  | .null => rfl
  | .arr _ => rfl

theorem fieldsChildren_eq_nodesFields (fid : String) : ∀ fs : JFields,
    fieldsChildren fid fs = Except.map (List.map (mkCleanEntry fid)) (nodesFields fs)
  | .nil => rfl
  | .cons k v rest => by
    rw [fieldsChildren, nodesFields]
    by_cases hk : k = "objects"
    · rw [if_pos hk, if_pos hk]
      by_cases ht : jsTruthy v = true
      · rw [if_pos ht, if_pos ht]
        exact traverseVal_eq_nodesVal fid v
      · rw [if_neg ht, if_neg ht]
        rfl
    · rw [if_neg hk, if_neg hk]
      exact fieldsChildren_eq_nodesFields fid rest

theorem traverseVal_eq_nodesVal (fid : String) : ∀ v : JVal,
    traverseVal fid v = Except.map (List.map (mkCleanEntry fid)) (nodesVal v)
  | .arr xs => traverseList_eq_nodesList fid xs
  | .obj _ => rfl
  | .s _ => rfl
  | .n _ => rfl
  | .b _ => rfl
  | .null => rfl
end

theorem extractObjects_eq_nodes (json : JVal) (fid : String) :
    extractObjects json fid = Except.map (List.map (mkCleanEntry fid)) (extractNodes json) := by
  cases json with
  | null => rfl
  | s v => rfl
  | n v => rfl
  | b v => rfl
  | arr xs => rfl
  | obj fs =>
    rw [extractObjects, extractNodes]
    cases hb : jsGetProp (.obj fs) "body" with
    | none => rfl
    | some body =>
      simp only []
      by_cases ht : jsTruthy body = true
      · rw [if_pos ht, if_pos ht]
        cases ho : jsGetProp body "objects" with
        | none => rfl
        | some objs =>
          simp only []
          by_cases hto : jsTruthy objs = true
          · rw [if_pos hto, if_pos hto]
            exact traverseVal_eq_nodesVal fid objs
          · rw [if_neg hto, if_neg hto]
            rfl
      · rw [if_neg ht, if_neg ht]
        rfl
    all_goals intro hcontra
    all_goals exact absurd hcontra (by simp)

/-- C2: every record produced by flattening a document is the clean
entry of one visited node, and its key set is exactly
`{fileName} ∪ (that node's own keys minus "objects")`; in particular no
output record ever contains a key literally named `objects`. -/
theorem flatten_no_objects_key_C2 (json : JVal) (fid : String) (recs : List Rec)
    (h : extractObjects json fid = .ok recs) :
    (∃ ess, extractNodes json = .ok ess
      ∧ recs = ess.map (mkCleanEntry fid)
      ∧ ∀ es ∈ ess, ∀ k, k ∈ recKeys (mkCleanEntry fid es) ↔
          (k = "fileName" ∨ (k ∈ es.map Prod.fst ∧ k ≠ "objects")))
    ∧ ∀ r ∈ recs, "objects" ∉ recKeys r := by
  rw [extractObjects_eq_nodes] at h
  cases hn : extractNodes json with
  | error e =>
    rw [hn, except_map_error] at h
    exact absurd h (by simp)
  | ok ess =>
    rw [hn, except_map_ok, Except.ok.injEq] at h
    constructor
    · exact ⟨ess, rfl, h.symm, fun es _ k => mem_recKeys_mkCleanEntry fid es k⟩
    · intro r hr
      rw [← h, List.mem_map] at hr
      obtain ⟨es, _, hes⟩ := hr
      rw [← hes, mem_recKeys_mkCleanEntry]
      simp

/-- Witness for C2 at the specification's example document. -/
theorem flatten_no_objects_key_C2_witness :
    extractObjects docGroup "f1.json" = .ok recsGroup
    ∧ ∀ r ∈ recsGroup, "objects" ∉ recKeys r :=
  ⟨rfl, (flatten_no_objects_key_C2 docGroup "f1.json" recsGroup rfl).2⟩

/-! ### C4 — the Diff phase and incremental re-sync -/


theorem mem_upsertMeta (ms : List FileMeta) (x m : FileMeta)
    (h : m ∈ upsertMeta ms x) : m = x ∨ m ∈ ms := by
  induction ms with
  | nil => simpa [upsertMeta] using h
  | cons y rest ih =>
    rw [upsertMeta] at h
    by_cases hy : y.fileName = x.fileName
    · rw [if_pos hy] at h
      rcases List.mem_cons.mp h with h | h
      · exact Or.inl h
      · exact Or.inr (List.mem_cons_of_mem y h)
    · rw [if_neg hy] at h
      rcases List.mem_cons.mp h with h | h
      · exact Or.inr (h ▸ List.mem_cons_self y rest)
      · rcases ih h with h | h
        · exact Or.inl h
        · exact Or.inr (List.mem_cons_of_mem y h)

theorem lookupLast_mem (ms : List FileMeta) (n : String) (m : FileMeta)
    (h : lookupLast ms n = some m) : m ∈ ms ∧ m.fileName = n := by
  induction ms with
  | nil => simp [lookupLast] at h
  | cons y rest ih =>
    rw [lookupLast] at h
    cases hr : lookupLast rest n with
    | some z =>
      rw [hr, Option.some_inj] at h
      subst h
      exact ⟨List.mem_cons_of_mem y (ih hr).1, (ih hr).2⟩
    | none =>
      rw [hr] at h
      by_cases hy : y.fileName = n
      · rw [if_pos hy, Option.some_inj] at h
        subst h
        exact ⟨List.mem_cons_self y rest, hy⟩
      · rw [if_neg hy] at h
        exact absurd h (by simp)

theorem lookupLast_eq_none (ms : List FileMeta) (n : String) :
    lookupLast ms n = none ↔ n ∉ ms.map FileMeta.fileName := by
  induction ms with
  | nil => simp [lookupLast]
  | cons y rest ih =>
    rw [lookupLast, List.map_cons, List.mem_cons]
    cases hr : lookupLast rest n with
    | some z =>
      have hz := lookupLast_mem rest n z hr
      constructor
      · intro h
        exact Option.noConfusion h
      · intro h
        exact absurd (Or.inr (hz.2 ▸ List.mem_map_of_mem FileMeta.fileName hz.1)) h
    | none =>
      have hrest : n ∉ rest.map FileMeta.fileName := ih.mp hr
      by_cases hy : y.fileName = n
      · simp [if_pos hy, hy]
      · simp [if_neg hy, hrest, show ¬ n = y.fileName from fun hc => hy hc.symm]

theorem lookupLast_upsert_self (ms : List FileMeta) (x : FileMeta)
    (hnd : (ms.map FileMeta.fileName).Nodup) :
    lookupLast (upsertMeta ms x) x.fileName = some x := by
  induction ms with
  | nil => simp [upsertMeta, lookupLast]
  | cons y rest ih =>
    rw [List.map_cons, List.nodup_cons] at hnd
    rw [upsertMeta]
    by_cases hy : y.fileName = x.fileName
    · rw [if_pos hy, lookupLast]
      have hnone : lookupLast rest x.fileName = none :=
        (lookupLast_eq_none rest x.fileName).mpr (hy ▸ hnd.1)
      rw [hnone]
      simp
    · rw [if_neg hy, lookupLast, ih hnd.2]

theorem lookupLast_upsert_ne (ms : List FileMeta) (x : FileMeta) (n : String)
    (h : n ≠ x.fileName) :
    lookupLast (upsertMeta ms x) n = lookupLast ms n := by
  have hxn : ¬ x.fileName = n := fun hc => h hc.symm
  induction ms with
  | nil =>
    simp [upsertMeta, lookupLast, hxn]
  | cons y rest ih =>
    rw [upsertMeta]
    by_cases hy : y.fileName = x.fileName
    · rw [if_pos hy, lookupLast, lookupLast]
      cases hr : lookupLast rest n with
      | some z => rfl
      | none =>
        rw [if_neg hxn, if_neg (fun hc : y.fileName = n => hxn (hy.symm.trans hc))]
    · rw [if_neg hy, lookupLast, lookupLast, ih]

theorem nodup_upsertMeta (ms : List FileMeta) (x : FileMeta)
    (hnd : (ms.map FileMeta.fileName).Nodup) :
    ((upsertMeta ms x).map FileMeta.fileName).Nodup := by
  induction ms with
  | nil => simp [upsertMeta]
  | cons y rest ih =>
    rw [List.map_cons, List.nodup_cons] at hnd
    rw [upsertMeta]
    by_cases hy : y.fileName = x.fileName
    · rw [if_pos hy, List.map_cons, List.nodup_cons]
      exact ⟨hy ▸ hnd.1, hnd.2⟩
    · rw [if_neg hy, List.map_cons, List.nodup_cons]
      refine ⟨?_, ih hnd.2⟩
      intro hc
      rw [List.mem_map] at hc
      obtain ⟨m, hm, hmn⟩ := hc
      rcases mem_upsertMeta rest x m hm with h | h
      · exact hy (h ▸ hmn).symm
      · exact hnd.1 (hmn ▸ List.mem_map_of_mem FileMeta.fileName h)

theorem applyFiles_fileMeta (fetch : String → Except Unit JVal) (now : String) :
    ∀ (files : List S3File) (st : Store),
      (applyFiles fetch now files st).fileMeta = applyMetas fetch now files st.fileMeta
  | [], st => rfl
  | f :: rest, st => by
    rw [applyFiles, applyMetas, applyFiles_fileMeta fetch now rest]
    congr 1
    rw [applyFile]
    cases hfe : fetchAndExtract fetch f with
    | error e => rfl
    | ok objs => rfl

theorem applyMetas_untouched (fetch : String → Except Unit JVal) (now : String) :
    ∀ (files : List S3File) (fm : List FileMeta) (n : String),
      (∀ f ∈ files, f.fileName ≠ n) →
      lookupLast (applyMetas fetch now files fm) n = lookupLast fm n
  | [], fm, n, _ => rfl
  | f :: rest, fm, n, h => by
    rw [applyMetas]
    rw [applyMetas_untouched fetch now rest _ n
      (fun g hg => h g (List.mem_cons_of_mem f hg))]
    cases hfe : fetchAndExtract fetch f with
    | error e => rfl
    | ok objs =>
      exact lookupLast_upsert_ne fm _ n
        (fun hc => h f (List.mem_cons_self f rest) hc.symm)

theorem applyMetas_nodup (fetch : String → Except Unit JVal) (now : String) :
    ∀ (files : List S3File) (fm : List FileMeta),
      (fm.map FileMeta.fileName).Nodup →
      ((applyMetas fetch now files fm).map FileMeta.fileName).Nodup
  | [], fm, h => h
  | f :: rest, fm, h => by
    rw [applyMetas]
    apply applyMetas_nodup fetch now rest
    cases hfe : fetchAndExtract fetch f with
    | error e => exact h
    | ok objs => exact nodup_upsertMeta fm _ h

theorem applyMetas_mem (fetch : String → Except Unit JVal) (now : String) :
    ∀ (files : List S3File) (fm : List FileMeta) (m : FileMeta),
      m ∈ applyMetas fetch now files fm →
      m ∈ fm ∨ ∃ f ∈ files, m.fileName = f.fileName
  | [], fm, m, h => Or.inl h
  | f :: rest, fm, m, h => by
    rw [applyMetas] at h
    cases hfe : fetchAndExtract fetch f with
    | error e =>
      rw [hfe] at h
      rcases applyMetas_mem fetch now rest fm m h with h1 | ⟨g, hg, hgn⟩
      · exact Or.inl h1
      · exact Or.inr ⟨g, List.mem_cons_of_mem f hg, hgn⟩
    | ok objs =>
      rw [hfe] at h
      rcases applyMetas_mem fetch now rest _ m h with h1 | ⟨g, hg, hgn⟩
      · rcases mem_upsertMeta fm _ m h1 with h2 | h2
        · exact Or.inr ⟨f, List.mem_cons_self f rest, by rw [h2]⟩
        · exact Or.inl h2
      · exact Or.inr ⟨g, List.mem_cons_of_mem f hg, hgn⟩

theorem applyMetas_hit (fetch : String → Except Unit JVal) (now : String) :
    ∀ (files : List S3File) (fm : List FileMeta),
      (files.map S3File.fileName).Nodup →
      (fm.map FileMeta.fileName).Nodup →
      (∀ f ∈ files, fetchOk fetch f = true) →
      ∀ f ∈ files, ∃ cnt,
        lookupLast (applyMetas fetch now files fm) f.fileName
          = some ⟨f.fileName, f.lastModified, cnt, now⟩
  | [], fm, _, _, _ => by simp
  | g :: rest, fm, hfiles, hfm, hok => by
    intro f hf
    rw [applyMetas]
    rw [List.map_cons, List.nodup_cons] at hfiles
    cases hfe : fetchAndExtract fetch g with
    | error e =>
      exact absurd (by rw [fetchOk, hfe] : fetchOk fetch g = false)
        (by simp [hok g (List.mem_cons_self g rest)])
    | ok objs =>
      rcases List.mem_cons.mp hf with hfg | hfr
      · subst hfg
        refine ⟨objs.length, ?_⟩
        rw [applyMetas_untouched fetch now rest _ f.fileName ?_]
        · exact lookupLast_upsert_self fm _ hfm
        · intro g' hg' hc
          exact hfiles.1 (hc ▸ List.mem_map_of_mem S3File.fileName hg')
      · exact applyMetas_hit fetch now rest _ hfiles.2 (nodup_upsertMeta fm _ hfm)
          (fun g' hg' => hok g' (List.mem_cons_of_mem g hg')) f hfr

theorem lookupLast_filter (p : FileMeta → Bool) :
    ∀ (ms : List FileMeta) (n : String) (m : FileMeta),
      lookupLast ms n = some m → p m = true →
      lookupLast (ms.filter p) n = some m
  | [], n, m, h, _ => by simp [lookupLast] at h
  | y :: rest, n, m, h, hp => by
    rw [lookupLast] at h
    cases hr : lookupLast rest n with
    | some z =>
      rw [hr, Option.some_inj] at h
      have hpz : p z = true := h.symm ▸ hp
      have hz := lookupLast_filter p rest n z hr hpz
      rw [List.filter_cons]
      by_cases hy : p y = true
      · rw [if_pos hy, lookupLast, hz, h]
      · rw [if_neg hy, hz, h]
    | none =>
      rw [hr] at h
      by_cases hy : y.fileName = n
      · rw [if_pos hy, Option.some_inj] at h
        subst h
        have hnone : lookupLast (rest.filter p) n = none := by
          rw [lookupLast_eq_none] at hr ⊢
          intro hc
          rw [List.mem_map] at hc
          obtain ⟨z, hz, hzn⟩ := hc
          exact hr (hzn ▸ List.mem_map_of_mem FileMeta.fileName (List.mem_of_mem_filter hz))
        rw [List.filter_cons, if_pos hp, lookupLast, hnone, if_pos hy]
      · rw [if_neg hy] at h
        exact absurd h (by simp)

theorem mem_computeDiff_toSync (s3Files : List S3File) (fm : List FileMeta) (f : S3File) :
    f ∈ (computeDiff s3Files fm).1 ↔
      f ∈ s3Files ∧
        (lookupLast fm f.fileName = none ∨
          ∃ e, lookupLast fm f.fileName = some e ∧ e.lastModified ≠ f.lastModified) := by
  simp only [computeDiff, List.mem_filter]
  apply and_congr_right
  intro _
  cases hl : lookupLast fm f.fileName with
  | none => simp
  | some e => simp

theorem mem_computeDiff_toDelete (s3Files : List S3File) (fm : List FileMeta) (n : String) :
    n ∈ (computeDiff s3Files fm).2 ↔
      ∃ m ∈ fm, m.fileName = n ∧ n ∉ s3Files.map S3File.fileName := by
  simp only [computeDiff, List.mem_map, List.mem_filter]
  constructor
  · rintro ⟨m, ⟨hm, hns⟩, rfl⟩
    refine ⟨m, hm, rfl, ?_⟩
    simpa [List.contains, List.elem_iff] using hns
  · rintro ⟨m, hm, rfl, hn⟩
    exact ⟨m, ⟨hm, by simpa [List.contains, List.elem_iff] using hn⟩, rfl⟩

theorem syncPass_fileMeta (fetch : String → Except Unit JVal) (now : String)
    (st : Store) (s3Files : List S3File) :
    (syncPass fetch now st s3Files).fileMeta
      = applyMetas fetch now (computeDiff s3Files st.fileMeta).1
          (deleteMetaByNames st.fileMeta (computeDiff s3Files st.fileMeta).2) := by
  simp only [syncPass, updateSyncMeta, applyFiles_fileMeta]

theorem deleteMeta_eq_filter (s3Files : List S3File) (fm : List FileMeta) :
    deleteMetaByNames fm (computeDiff s3Files fm).2
      = fm.filter (fun m => (s3Files.map S3File.fileName).contains m.fileName) := by
  rw [deleteMetaByNames]
  apply List.filter_congr
  intro m hm
  by_cases hs : m.fileName ∈ s3Files.map S3File.fileName
  · have hnd2 : m.fileName ∉ (computeDiff s3Files fm).2 := by
      rw [mem_computeDiff_toDelete]
      rintro ⟨m', _, _, hns⟩
      exact hns hs
    simp [List.contains, List.elem_iff, hnd2, hs]
  · have hd : m.fileName ∈ (computeDiff s3Files fm).2 :=
      (mem_computeDiff_toDelete s3Files fm m.fileName).mpr ⟨m, hm, rfl, hs⟩
    simp [List.contains, List.elem_iff, hd, hs]

theorem rerun_computeDiff_empty (s3Files : List S3File) (st : Store)
    (fetch : String → Except Unit JVal) (now : String)
    (h1 : (s3Files.map S3File.fileName).Nodup)
    (h2 : (st.fileMeta.map FileMeta.fileName).Nodup)
    (h3 : ∀ f ∈ (computeDiff s3Files st.fileMeta).1, fetchOk fetch f = true) :
    computeDiff s3Files (syncPass fetch now st s3Files).fileMeta = ([], []) := by
  rw [syncPass_fileMeta, deleteMeta_eq_filter]
  set fm1 := st.fileMeta.filter
    (fun m => (s3Files.map S3File.fileName).contains m.fileName) with hfm1def
  set toSync := (computeDiff s3Files st.fileMeta).1 with htsdef
  have hfm1nd : (fm1.map FileMeta.fileName).Nodup :=
    (List.Sublist.map FileMeta.fileName (List.filter_sublist st.fileMeta)).nodup h2
  have htsmem : ∀ f ∈ toSync, f ∈ s3Files := by
    intro f hf
    exact ((mem_computeDiff_toSync s3Files st.fileMeta f).mp hf).1
  have htsnd : (toSync.map S3File.fileName).Nodup := by
    rw [htsdef]
    simp only [computeDiff]
    exact (List.Sublist.map S3File.fileName (List.filter_sublist s3Files)).nodup h1
  set fm' := applyMetas fetch now toSync fm1 with hfmp
  have hgood : ∀ f ∈ s3Files, ∃ m, lookupLast fm' f.fileName = some m
      ∧ m.lastModified = f.lastModified := by
    intro f hf
    by_cases hmem : f ∈ toSync
    · obtain ⟨cnt, hcnt⟩ :=
        applyMetas_hit fetch now toSync fm1 htsnd hfm1nd h3 f hmem
      exact ⟨_, hcnt, rfl⟩
    · have hsome : ∃ e, lookupLast st.fileMeta f.fileName = some e
          ∧ e.lastModified = f.lastModified := by
        by_cases hnone : lookupLast st.fileMeta f.fileName = none
        · exact absurd ((mem_computeDiff_toSync s3Files st.fileMeta f).mpr
            ⟨hf, Or.inl hnone⟩) hmem
        · obtain ⟨e, hl⟩ := Option.ne_none_iff_exists'.mp hnone
          by_cases heq : e.lastModified = f.lastModified
          · exact ⟨e, hl, heq⟩
          · exact absurd ((mem_computeDiff_toSync s3Files st.fileMeta f).mpr
              ⟨hf, Or.inr ⟨e, hl, heq⟩⟩) hmem
      obtain ⟨e, hl, heq⟩ := hsome
      have hename : e.fileName = f.fileName := (lookupLast_mem _ _ _ hl).2
      have hpe : (fun m => (s3Files.map S3File.fileName).contains m.fileName) e = true := by
        simp only [List.contains, List.elem_iff]
        exact hename ▸ List.mem_map_of_mem S3File.fileName hf
      have hl1 : lookupLast fm1 f.fileName = some e :=
        lookupLast_filter _ st.fileMeta f.fileName e hl hpe
      have huntouched : lookupLast fm' f.fileName = lookupLast fm1 f.fileName := by
        apply applyMetas_untouched
        intro g hg hc
        have hgf : g = f :=
          List.inj_on_of_nodup_map h1 (htsmem g hg) hf hc
        exact hmem (hgf ▸ hg)
      rw [huntouched, hl1]
      exact ⟨e, rfl, heq⟩
  have hdel : ∀ m ∈ fm', m.fileName ∈ s3Files.map S3File.fileName := by
    intro m hm
    rcases applyMetas_mem fetch now toSync fm1 m hm with h | ⟨f, hfts, hfn⟩
    · rw [hfm1def] at h
      have hb := List.of_mem_filter h
      simpa [List.contains, List.elem_iff] using hb
    · exact hfn ▸ List.mem_map_of_mem S3File.fileName (htsmem f hfts)
  have hempty1 : (computeDiff s3Files fm').1 = [] := by
    rw [List.eq_nil_iff_forall_not_mem]
    intro f hf'
    rw [mem_computeDiff_toSync] at hf'
    obtain ⟨hf, hdisj⟩ := hf'
    obtain ⟨m, hml, hmod⟩ := hgood f hf
    rcases hdisj with hnone | ⟨e', he', hne⟩
    · rw [hml] at hnone
      exact Option.noConfusion hnone
    · rw [hml, Option.some_inj] at he'
      exact hne (he' ▸ hmod)
  have hempty2 : (computeDiff s3Files fm').2 = [] := by
    rw [List.eq_nil_iff_forall_not_mem]
    intro n hn
    rw [mem_computeDiff_toDelete] at hn
    obtain ⟨m, hm, hmn, hns⟩ := hn
    exact hns (hmn ▸ hdel m hm)
  calc computeDiff s3Files fm'
      = ((computeDiff s3Files fm').1, (computeDiff s3Files fm').2) := rfl
    _ = ([], []) := by rw [hempty1, hempty2]

/-- C4 (amended): the Diff phase marks a remote file "to sync" iff it is
absent from stored metadata or its change marker differs, and marks a
stored file "to delete" iff its name is absent from the remote listing;
consequently — provided remote file names and stored metadata names are
duplicate-free and every marked file is fetched and parsed successfully
during the pass — re-running with an unchanged remote listing marks zero
files "to sync" and zero "to delete". (Without the success proviso a
failed file keeps its stale marker and is re-marked on the next pass.) -/
theorem diff_marks_and_rerun_C4 (s3Files : List S3File) (st : Store)
    (fetch : String → Except Unit JVal) (now : String)
    (h1 : (s3Files.map S3File.fileName).Nodup)
    (h2 : (st.fileMeta.map FileMeta.fileName).Nodup)
    (h3 : ∀ f ∈ (computeDiff s3Files st.fileMeta).1, fetchOk fetch f = true) :
    (∀ f : S3File, f ∈ (computeDiff s3Files st.fileMeta).1 ↔
      f ∈ s3Files ∧
        (lookupLast st.fileMeta f.fileName = none ∨
          ∃ e, lookupLast st.fileMeta f.fileName = some e
            ∧ e.lastModified ≠ f.lastModified))
    ∧ (∀ n : String, n ∈ (computeDiff s3Files st.fileMeta).2 ↔
        ∃ m ∈ st.fileMeta, m.fileName = n ∧ n ∉ s3Files.map S3File.fileName)
    ∧ computeDiff s3Files (syncPass fetch now st s3Files).fileMeta = ([], []) :=
  ⟨fun f => mem_computeDiff_toSync s3Files st.fileMeta f,
   fun n => mem_computeDiff_toDelete s3Files st.fileMeta n,
   rerun_computeDiff_empty s3Files st fetch now h1 h2 h3⟩

/-- C4 counterexample: when the single file's fetch fails during a pass,
re-running the diff with the **unchanged** listing marks that file "to
sync" again — one file, not zero — because its metadata was never
written. -/
theorem diff_marks_and_rerun_C4_counterexample :
    (computeDiff [s3FileA] (syncPass fetchFail "t1" storeEmpty [s3FileA]).fileMeta).1
      = [s3FileA]
    ∧ [s3FileA] ≠ ([] : List S3File) :=
  ⟨by decide, by decide⟩

/-- Witness for C4 (amended): a successful one-file pass after which the
rerun diff is empty. -/
theorem diff_marks_and_rerun_C4_witness :
    (([s3FileB].map S3File.fileName).Nodup
     ∧ ((storeEmpty.fileMeta).map FileMeta.fileName).Nodup
     ∧ (∀ f ∈ (computeDiff [s3FileB] storeEmpty.fileMeta).1,
          fetchOk fetchAllButA f = true))
    ∧ computeDiff [s3FileB]
        (syncPass fetchAllButA "t1" storeEmpty [s3FileB]).fileMeta = ([], []) :=
  ⟨⟨by decide, by decide, by decide⟩,
   (diff_marks_and_rerun_C4 [s3FileB] storeEmpty fetchAllButA "t1"
      (by decide) (by decide) (by decide)).2.2⟩

/-! ### C8 — CSV escaping and round-trip -/

theorem cons_ne_quote (c : Char) (h : c ≠ '"') (xs : List Char) :
    ∀ t, c :: xs ≠ '"' :: t := by
  intro t hc
  injection hc with h1 _
  exact h h1

theorem csvScanQ_doubled (rest field : List Char) (record : List (List Char))
    (acc : List (List (List Char))) :
    csvScanQ ('"' :: '"' :: rest) field record acc
      = csvScanQ rest (field ++ ['"']) record acc := rfl

theorem csvScanQ_close (rest field : List Char) (record : List (List Char))
    (acc : List (List (List Char))) (h : ∀ t, rest ≠ '"' :: t) :
    csvScanQ ('"' :: rest) field record acc = csvScanU rest field record acc := by
  cases rest with
  | nil => rfl
  | cons c rs =>
    have hc : ¬ c = '"' := fun hcq => h rs (by rw [hcq])
    simp [csvScanQ, hc]

theorem csvScanQ_other (c : Char) (h : ¬ c = '"') (rest field : List Char)
    (record : List (List Char)) (acc : List (List (List Char))) :
    csvScanQ (c :: rest) field record acc
      = csvScanQ rest (field ++ [c]) record acc := by
  simp [csvScanQ, h]


theorem csvScanU_comma (rest field : List Char) (record : List (List Char))
    (acc : List (List (List Char))) :
    csvScanU (',' :: rest) field record acc
      = csvScanU rest [] (record ++ [field]) acc := rfl

theorem csvScanU_newline (rest field : List Char) (record : List (List Char))
    (acc : List (List (List Char))) :
    csvScanU ('\n' :: rest) field record acc
      = csvScanU rest [] [] (acc ++ [record ++ [field]]) := rfl

theorem csvScanU_openQuote (rest : List Char) (record : List (List Char))
    (acc : List (List (List Char))) :
    csvScanU ('"' :: rest) [] record acc = csvScanQ rest [] record acc := rfl

theorem csvScanU_other (c : Char) (hc : ¬ c = ',') (hn : ¬ c = '\n')
    (hq : ¬ c = '"') (rest field : List Char) (record : List (List Char))
    (acc : List (List (List Char))) :
    csvScanU (c :: rest) field record acc
      = csvScanU rest (field ++ [c]) record acc := by
  simp [csvScanU, hc, hn, hq]

theorem csvScanU_nil_done (acc : List (List (List Char))) :
    csvScanU [] [] [] acc = some acc := rfl

theorem csvScanQ_content (s : List Char) :
    ∀ (field : List Char) (record : List (List Char)) (acc : List (List (List Char)))
      (cs : List Char), (∀ t, cs ≠ '"' :: t) →
      csvScanQ (doubleQuotes s ++ '"' :: cs) field record acc
        = csvScanU cs (field ++ s) record acc := by
  induction s with
  | nil =>
    intro field record acc cs hcs
    rw [doubleQuotes, List.nil_append, csvScanQ_close _ _ _ _ hcs, List.append_nil]
  | cons c s' ih =>
    intro field record acc cs hcs
    rw [doubleQuotes]
    by_cases hc : c = '"'
    · rw [if_pos hc, List.cons_append, List.cons_append, csvScanQ_doubled,
        ih _ _ _ _ hcs, List.append_assoc, hc]
      rfl
    · rw [if_neg hc, List.cons_append, csvScanQ_other c hc,
        ih _ _ _ _ hcs, List.append_assoc]
      rfl

theorem csvScanU_content (s : List Char) :
    ∀ (field : List Char) (record : List (List Char)) (acc : List (List (List Char)))
      (cs : List Char),
      (∀ c ∈ s, ¬ c = ',' ∧ ¬ c = '\n' ∧ ¬ c = '"') →
      csvScanU (s ++ cs) field record acc = csvScanU cs (field ++ s) record acc := by
  induction s with
  | nil =>
    intro field record acc cs _
    rw [List.nil_append, List.append_nil]
  | cons c s' ih =>
    intro field record acc cs hs
    have hc := hs c (List.mem_cons_self c s')
    rw [List.cons_append, csvScanU_other c hc.1 hc.2.1 hc.2.2,
      ih _ _ _ _ (fun c2 hc2 => hs c2 (List.mem_cons_of_mem c hc2)),
      List.append_assoc]
    rfl

theorem needsQuote_false_chars (s : List Char) (h : needsQuote s = false) :
    ∀ c ∈ s, ¬ c = ',' ∧ ¬ c = '\n' ∧ ¬ c = '"' := by
  intro c hc
  rw [needsQuote] at h
  simp only [Bool.or_eq_false_iff] at h
  refine ⟨?_, ?_, ?_⟩ <;> intro hceq <;> subst hceq
  · exact absurd h.1.1 (by simp [List.contains, List.elem_iff, hc])
  · exact absurd h.2 (by simp [List.contains, List.elem_iff, hc])
  · exact absurd h.1.2 (by simp [List.contains, List.elem_iff, hc])

theorem csvScanU_field (s : List Char) (record : List (List Char))
    (acc : List (List (List Char))) (cs : List Char)
    (hcs : ∀ t, cs ≠ '"' :: t) :
    csvScanU (escapeField s ++ cs) [] record acc = csvScanU cs s record acc := by
  rw [escapeField]
  by_cases hq : needsQuote s = true
  · rw [if_pos hq, List.cons_append, List.append_assoc,
      csvScanU_openQuote]
    have := csvScanQ_content s [] record acc cs hcs
    rw [List.nil_append] at this
    simpa using this
  · rw [if_neg hq]
    have hfc := needsQuote_false_chars s (by
      cases hnq : needsQuote s with
      | true => exact absurd hnq hq
      | false => rfl)
    have := csvScanU_content s [] record acc cs hfc
    rw [List.nil_append] at this
    exact this

theorem csvScanU_record (fs : List (List Char)) :
    ∀ (record : List (List Char)) (acc : List (List (List Char))) (cs : List Char),
      fs ≠ [] →
      csvScanU (joinSep (fs.map escapeField) ++ '\n' :: cs) [] record acc
        = csvScanU cs [] [] (acc ++ [record ++ fs]) := by
  induction fs with
  | nil => intro _ _ _ h; exact absurd rfl h
  | cons f rest ih =>
    intro record acc cs _
    cases rest with
    | nil =>
      rw [List.map_cons, List.map_nil, joinSep,
        csvScanU_field f record acc ('\n' :: cs) (cons_ne_quote '\n' (by decide) cs),
        csvScanU_newline]
    | cons f2 fs' =>
      rw [List.map_cons, joinSep, List.append_assoc, List.cons_append,
        csvScanU_field f record acc _ (cons_ne_quote ',' (by decide) _),
        csvScanU_comma, ih (record ++ [f]) acc cs (by simp), List.append_assoc]
      rfl
      simp

theorem escapeCSVCell_eq (v : Option Scalar) :
    escapeCSVCell v = escapeField (csvCellText v) := by
  cases v with
  | none => rfl
  | some sc => cases sc <;> rfl

theorem csvScanU_body (columns : List String) (hcols : columns ≠ []) :
    ∀ (rows : List Rec) (acc : List (List (List Char))),
      csvScanU (csvBody columns rows) [] [] acc
        = some (acc ++ rows.map (fun row =>
            columns.map (fun col => csvCellText (jsIndex row col)))) := by
  intro rows
  induction rows with
  | nil =>
    intro acc
    rw [csvBody, csvScanU_nil_done]
    simp
  | cons row rest ih =>
    intro acc
    rw [csvBody]
    have hmap : columns.map (fun col => escapeCSVCell (jsIndex row col))
        = (columns.map (fun col => csvCellText (jsIndex row col))).map escapeField := by
      rw [List.map_map]
      apply List.map_congr_left
      intro col _
      exact escapeCSVCell_eq (jsIndex row col)
    rw [hmap, csvScanU_record _ [] acc _ (by simpa using hcols), ih]
    simp

/-- C8: the CSV built by `downloadCSV` escapes exactly the fields
containing a comma, double-quote or newline (wrapping them in double
quotes with internal quotes doubled), renders `null`/`undefined` cells as
empty fields, and — provided the column names themselves are plain — a
standard LF-terminated CSV reader parses the document back to the header
and exactly the original rendered cell values of every row, including
rows with embedded commas and embedded quotes. -/
theorem csv_roundtrip_C8 (columns : List String) (rows : List Rec)
    (hcols : columns ≠ [])
    (hplain : ∀ c ∈ columns, needsQuote c.data = false) :
    parseCSV (makeCSV columns rows)
      = some ((columns.map String.data)
          :: rows.map (fun row =>
              columns.map (fun col => csvCellText (jsIndex row col))))
    ∧ (∀ v : Option Scalar, needsQuote (csvCellText v) = true →
        escapeCSVCell v = '"' :: (doubleQuotes (csvCellText v) ++ ['"']))
    ∧ escapeCSVCell none = [] ∧ escapeCSVCell (some Scalar.null) = [] := by
  refine ⟨?_, ?_, rfl, rfl⟩
  · rw [parseCSV, makeCSV]
    have hmap : columns.map String.data = (columns.map String.data).map escapeField := by
      rw [List.map_map]
      apply List.map_congr_left
      intro col hcol
      show String.data col = escapeField col.data
      rw [escapeField, if_neg (by simp [hplain col hcol])]
    nth_rewrite 1 [hmap]
    rw [csvScanU_record _ [] [] _ (by simpa using hcols),
      csvScanU_body columns hcols rows]
    simp
  · intro v hv
    rw [escapeCSVCell_eq, escapeField, if_pos hv]

/-- Witness for C8: a row with an embedded comma and an embedded quote
round-trips through the produced CSV. -/
theorem csv_roundtrip_C8_witness :
    ((["name", "title"] : List String) ≠ []
     ∧ ∀ c ∈ (["name", "title"] : List String), needsQuote c.data = false)
    ∧ parseCSV (makeCSV ["name", "title"]
        [[("name", some (.s "he,llo")), ("title", some (.s "say \"hi\""))]])
      = some ((["name", "title"] : List String).map String.data
          :: [[("name", some (Scalar.s "he,llo")),
               ("title", some (Scalar.s "say \"hi\""))]].map
              (fun row => (["name", "title"] : List String).map
                (fun col => csvCellText (jsIndex row col)))) :=
  ⟨⟨by decide, by decide⟩,
   (csv_roundtrip_C8 ["name", "title"]
      [[("name", some (.s "he,llo")), ("title", some (.s "say \"hi\""))]]
      (by decide) (by decide)).1⟩
